import Mathlib

/-!
Verification of the `RiskMetrics` module of `mlfinlab`
(`mlfinlab/portfolio_optimization/risk_metrics.py`).

The module computes four portfolio risk measures from historical return
series: variance (a quadratic form), Value at Risk (an empirical quantile
with pandas' `interpolation='higher'` rule), Expected Shortfall (the mean
of the returns strictly below the VaR threshold) and Conditional Drawdown
at Risk (the mean of the running-maximum-of-drawdown values strictly above
their own quantile threshold).

Shallow embedding choices:
* Real numbers are modelled by `ℚ`; all the arithmetic in the source is
  exact on rational inputs.
* A return series is one numeric column, modelled by `List ℚ` in time
  order.  Both accepted input shapes of the source (bare sequence or
  table) are normalized by `pd.DataFrame(...)` to per-column data, and
  every computation is per column, so the single-column embedding carries
  the whole semantics.
* Results of the pandas/numpy pipeline are `PdResult`: a finite number, a
  floating NaN (`nan`), or a raised `ValueError` (`invalidParameter`).
* `DataFrame.quantile(q, interpolation='higher')` on a column of length n
  sorts the column and returns the entry at index `⌈q * (n - 1)⌉`
  (0-based); it raises for `q` outside `[0, 1]` and yields NaN on an
  empty column.
* `np.nanmean` over the mask-selected values averages the selected values
  and yields NaN when nothing is selected.
* `DataFrame.expanding().max()` is the expanding (running) maximum.
-/

namespace RiskMetrics

/-- Result of a pandas/numpy computation: a finite numeric value, the
floating-point `NaN` that numpy uses for an undefined mean, or a raised
`ValueError` (invalid parameter) propagated from the statistical
primitives. -/
inductive PdResult where
  | num (x : ℚ)
  | nan
  | invalidParameter
deriving DecidableEq

/-- Dot product of two numeric sequences, as computed by `np.dot` on two
vectors (the common-length prefix is paired; the source always calls it on
equal-length data). -/
def dot (a b : List ℚ) : ℚ := (List.zipWith (fun x y => x * y) a b).sum

/-- Matrix–vector product, as computed by `np.dot` on a matrix and a
vector: one dot product per row. -/
def matVec (covariance : List (List ℚ)) (w : List ℚ) : List ℚ :=
  covariance.map (fun row => dot row w)

/-- Embedding of `RiskMetrics.calculate_variance`:
`np.dot(weights, np.dot(covariance, weights))`. -/
def calculate_variance (covariance : List (List ℚ)) (weights : List ℚ) : ℚ :=
  dot weights (matVec covariance weights)

/-- Ascending sort of a column, as performed inside the numpy quantile
primitive. -/
def sortedAsc (xs : List ℚ) : List ℚ := List.insertionSort (· ≤ ·) xs

/-- Embedding of `DataFrame.quantile(q, interpolation='higher')` on one
column: numpy places the virtual sample position at `q * (n - 1)` and the
'higher' rule selects the sorted entry at the ceiling of that position.
A quantile level outside `[0, 1]` raises `ValueError`; the quantile of an
empty column is NaN. -/
def quantileHigher (xs : List ℚ) (q : ℚ) : PdResult :=
  if q < 0 ∨ 1 < q then .invalidParameter
  else if xs = [] then .nan
  else .num ((sortedAsc xs).getD (⌈q * ((xs.length : ℚ) - 1)⌉).toNat 0)

/-- Embedding of `RiskMetrics.calculate_value_at_risk`: normalize to a
(single-column) table and take the per-column quantile at the confidence
level with 'higher' interpolation. -/
def calculate_value_at_risk (returns : List ℚ) (confidence_level : ℚ) : PdResult :=
  quantileHigher returns confidence_level

/-- Embedding of `np.nanmean` applied to the values kept by a boolean
mask (the dropped positions are NaN and are skipped): the mean of the
kept values, or NaN when none is kept. -/
def nanmean (xs : List ℚ) : PdResult :=
  if xs = [] then .nan else .num (xs.sum / (xs.length : ℚ))

/-- Embedding of `RiskMetrics.calculate_expected_shortfall`: compute the
VaR threshold, then `np.nanmean(returns[returns < value_at_risk])`, the
mean of the observations strictly below the threshold.  A NaN threshold
selects nothing (every comparison with NaN is false), and an exception
propagates. -/
def calculate_expected_shortfall (returns : List ℚ) (confidence_level : ℚ) : PdResult :=
  match calculate_value_at_risk returns confidence_level with
  | .num v => nanmean (returns.filter (fun x => x < v))
  | .nan => .nan
  | .invalidParameter => .invalidParameter

/-- Tail of `DataFrame.expanding().max()`: `expandingMaxAux m xs` is the
expanding maximum of `xs` where `m` is the maximum of the elements already
seen. -/
def expandingMaxAux (m : ℚ) : List ℚ → List ℚ
  | [] => []
  | x :: xs => max m x :: expandingMaxAux (max m x) xs

/-- Embedding of `DataFrame.expanding().max()` on one column: at each
position, the maximum of the column up to and including that position. -/
def expandingMax : List ℚ → List ℚ
  | [] => []
  | x :: xs => x :: expandingMaxAux x xs

/-- Embedding of `RiskMetrics.calculate_conditional_drawdown_risk`:
`drawdown = returns.expanding().max() - returns`,
`max_drawdown = drawdown.expanding().max()`, threshold = quantile of
`max_drawdown` at the confidence level with 'higher' interpolation, and
the result is `np.nanmean(max_drawdown[max_drawdown > threshold])`. -/
def calculate_conditional_drawdown_risk (returns : List ℚ) (confidence_level : ℚ) : PdResult :=
  let drawdown := List.zipWith (fun a b => a - b) (expandingMax returns) returns
  let max_drawdown := expandingMax drawdown
  match quantileHigher max_drawdown confidence_level with
  | .num t => nanmean (max_drawdown.filter (fun x => t < x))
  | .nan => .nan
  | .invalidParameter => .invalidParameter

/-- Maximum of a list of rationals (0 for the empty list; only applied to
non-empty lists). -/
def listMax : List ℚ → ℚ
  | [] => 0
  | x :: xs => xs.foldl max x

/-- Modelled from the spec: step 1 of the CDaR contract, the drawdown at
time `i` is the running maximum of the returns up to and including `i`
minus the return at `i`. -/
def specDrawdown (xs : List ℚ) (i : ℕ) : ℚ :=
  listMax (xs.take (i + 1)) - xs.getD i 0

/-- Modelled from the spec: step 2 of the CDaR contract, the expanding
maximum of the drawdown series at time `i`. -/
def specMaxDrawdown (xs : List ℚ) (i : ℕ) : ℚ :=
  listMax ((List.range (i + 1)).map (specDrawdown xs))

/-- Modelled from the spec: the CDaR contract as stated, steps 1–4
composed — the running-maximum-of-drawdown series is built pointwise from
its definition, then thresholded by its own 'higher' quantile, and the
values strictly above the threshold are averaged. -/
def cdarSpec (xs : List ℚ) (confidence_level : ℚ) : PdResult :=
  let mdd := (List.range xs.length).map (specMaxDrawdown xs)
  match quantileHigher mdd confidence_level with
  | .num t => nanmean (mdd.filter (fun x => t < x))
  | .nan => .nan
  | .invalidParameter => .invalidParameter

/-- Index selected by the 'higher' interpolation rule on a column of
length `n`: the ceiling of the virtual sample position `q * (n - 1)`. -/
def hiIndex (q : ℚ) (n : ℕ) : ℕ := (⌈q * ((n : ℚ) - 1)⌉).toNat

/-- Test fixture from the spec: the sorted sample `1..20`. -/
def oneTo20 : List ℚ :=
  [1, 2, 3, 4, 5, 6, 7, 8, 9, 10, 11, 12, 13, 14, 15, 16, 17, 18, 19, 20]

/-! ### Helper lemmas: dot products and sums -/

theorem dot_eq_sum (a : List ℚ) : ∀ b : List ℚ, a.length = b.length →
    dot a b = ∑ i in Finset.range a.length, a.getD i 0 * b.getD i 0 := by
  induction a with
  | nil => intro b _; simp [dot]
  | cons x xs ih =>
    intro b hb
    cases b with
    | nil => simp at hb
    | cons y ys =>
      simp only [List.length_cons, Nat.succ.injEq] at hb
      simp only [dot, List.zipWith_cons_cons, List.sum_cons, List.length_cons]
      rw [Finset.sum_range_succ']
      simp only [List.getD_cons_succ, List.getD_cons_zero]
      rw [← dot, ih ys hb]
      ring

theorem matVec_length (covariance : List (List ℚ)) (w : List ℚ) :
    (matVec covariance w).length = covariance.length := by
  simp [matVec]

theorem matVec_getD (covariance : List (List ℚ)) (w : List ℚ) (i : ℕ)
    (hi : i < covariance.length) :
    (matVec covariance w).getD i 0 = dot (covariance.getD i []) w := by
  have h1 : i < (matVec covariance w).length := by rwa [matVec_length]
  rw [List.getD_eq_getElem _ _ h1, List.getD_eq_getElem _ _ hi]
  simp [matVec]

theorem getD_mem {α : Type} [Inhabited α] (l : List α) (i : ℕ) (d : α) (h : i < l.length) :
    l.getD i d ∈ l := by
  rw [List.getD_eq_getElem _ _ h]
  exact List.getElem_mem h

/-- C4: for every N×N covariance matrix and length-N weight vector,
`calculate_variance` returns the quadratic form `wᵀ · C · w`
(`∑ i ∑ j wᵢ Cᵢⱼ wⱼ`); in particular `w = [1,0]` with `C = diag(4,9)`
yields `4`. -/
theorem variance_quadratic_form (covariance : List (List ℚ)) (w : List ℚ)
    (hC : covariance.length = w.length)
    (hrow : ∀ r ∈ covariance, r.length = w.length) :
    calculate_variance covariance w =
      ∑ i in Finset.range w.length, ∑ j in Finset.range w.length,
        w.getD i 0 * (covariance.getD i []).getD j 0 * w.getD j 0 ∧
    calculate_variance [[4, 0], [0, 9]] [1, 0] = 4 := by
  constructor
  · rw [calculate_variance, dot_eq_sum w (matVec covariance w)
      (by rw [matVec_length, hC])]
    refine Finset.sum_congr rfl fun i hi => ?_
    have hiC : i < covariance.length := hC ▸ Finset.mem_range.mp hi
    rw [matVec_getD covariance w i hiC,
      dot_eq_sum _ w (hrow _ (getD_mem covariance i [] hiC)),
      hrow _ (getD_mem covariance i [] hiC), Finset.mul_sum]
    exact Finset.sum_congr rfl fun j _ => by ring
  · norm_num [calculate_variance, dot, matVec]

/-- Witness for C4 at `C = diag(4,9)`, `w = [1,0]`. -/
theorem variance_quadratic_form_witness :
    calculate_variance [[4, 0], [0, 9]] [1, 0] =
      ∑ i in Finset.range 2, ∑ j in Finset.range 2,
        ([(1 : ℚ), 0].getD i 0) * (([[(4 : ℚ), 0], [0, 9]].getD i []).getD j 0) *
          ([(1 : ℚ), 0].getD j 0) ∧
    calculate_variance [[4, 0], [0, 9]] [1, 0] = 4 :=
  variance_quadratic_form [[4, 0], [0, 9]] [1, 0] (by decide)
    (by intro r hr; fin_cases hr <;> rfl)

/-! ### Helper lemmas: the expanding maximum -/

theorem expandingMaxAux_eq (xs : List ℚ) : ∀ m : ℚ,
    expandingMaxAux m xs
      = (List.range xs.length).map (fun i => (xs.take (i + 1)).foldl max m) := by
  induction xs with
  | nil => intro m; rfl
  | cons x xs ih =>
    intro m
    show max m x :: expandingMaxAux (max m x) xs = _
    rw [List.length_cons, List.range_succ_eq_map, List.map_cons, List.map_map, ih (max m x)]
    congr 1

theorem expandingMax_eq (xs : List ℚ) :
    expandingMax xs = (List.range xs.length).map (fun i => listMax (xs.take (i + 1))) := by
  cases xs with
  | nil => rfl
  | cons x xs =>
    show x :: expandingMaxAux x xs = _
    rw [List.length_cons, List.range_succ_eq_map, List.map_cons, List.map_map,
      expandingMaxAux_eq xs x]
    congr 1

theorem zipWith_map_range (f : ℚ → ℚ → ℚ) : ∀ (xs : List ℚ) (g : ℕ → ℚ),
    List.zipWith f ((List.range xs.length).map g) xs
      = (List.range xs.length).map (fun i => f (g i) (xs.getD i 0)) := by
  intro xs
  induction xs with
  | nil => intro g; rfl
  | cons x xs ih =>
    intro g
    rw [List.length_cons, List.range_succ_eq_map, List.map_cons, List.map_cons,
      List.map_map, List.map_map, List.zipWith_cons_cons, ih (g ∘ Nat.succ)]
    congr 1

theorem drawdown_eq (xs : List ℚ) :
    List.zipWith (fun a b => a - b) (expandingMax xs) xs
      = (List.range xs.length).map (fun i => specDrawdown xs i) := by
  rw [expandingMax_eq, zipWith_map_range]
  rfl

theorem max_drawdown_eq (xs : List ℚ) :
    expandingMax (List.zipWith (fun a b => a - b) (expandingMax xs) xs)
      = (List.range xs.length).map (fun i => specMaxDrawdown xs i) := by
  rw [drawdown_eq, expandingMax_eq, List.length_map, List.length_range]
  refine List.map_congr_left fun i hi => ?_
  have hi : i < xs.length := List.mem_range.mp hi
  rw [← List.map_take, List.take_range, Nat.min_eq_left hi]
  rfl

/-- C1: for every return series (normalized to one column) and confidence
level, `calculate_conditional_drawdown_risk` computes exactly the spec's
pipeline: drawdown = expanding max of the returns minus the returns,
then the expanding max of that drawdown series, then the 'higher'
α-quantile of the running-maximum-of-drawdown series, and finally the
mean of the running-maximum-of-drawdown values strictly greater than that
threshold. -/
theorem cdar_matches_spec_pipeline (xs : List ℚ) (confidence_level : ℚ) :
    calculate_conditional_drawdown_risk xs confidence_level = cdarSpec xs confidence_level := by
  simp only [calculate_conditional_drawdown_risk, cdarSpec]
  rw [max_drawdown_eq]

/-! ### Helper lemmas: the 'higher' quantile -/

theorem sortedAsc_length (xs : List ℚ) : (sortedAsc xs).length = xs.length :=
  (List.perm_insertionSort _ xs).length_eq

theorem sortedAsc_sorted (xs : List ℚ) : (sortedAsc xs).Sorted (· ≤ ·) :=
  List.sorted_insertionSort _ xs

theorem sortedAsc_mem (xs : List ℚ) {x : ℚ} : x ∈ sortedAsc xs ↔ x ∈ xs :=
  (List.perm_insertionSort _ xs).mem_iff

theorem quantileHigher_in_range (xs : List ℚ) (q : ℚ) (h0 : 0 ≤ q) (h1 : q ≤ 1)
    (hne : xs ≠ []) :
    quantileHigher xs q = .num ((sortedAsc xs).getD (hiIndex q xs.length) 0) := by
  rw [quantileHigher, if_neg, if_neg hne]
  · rfl
  · simp only [not_or, not_lt]
    exact ⟨h0, h1⟩

theorem hiIndex_lt (q : ℚ) (n : ℕ) (h1 : q ≤ 1) (hn : 1 ≤ n) : hiIndex q n < n := by
  have hnn : (0 : ℚ) ≤ (n : ℚ) - 1 := by
    have : (1 : ℚ) ≤ (n : ℚ) := by exact_mod_cast hn
    linarith
  have h2 : q * ((n : ℚ) - 1) ≤ (n : ℚ) - 1 := mul_le_of_le_one_left hnn h1
  have h4 : (⌈(n : ℚ) - 1⌉ : ℤ) = (n : ℤ) - 1 := by
    have h5 : ((n : ℚ) - 1) = (((n : ℤ) - 1 : ℤ) : ℚ) := by push_cast; ring
    rw [h5, Int.ceil_intCast]
  have h3 : (⌈q * ((n : ℚ) - 1)⌉ : ℤ) ≤ (n : ℤ) - 1 := h4 ▸ Int.ceil_le_ceil h2
  have h5 : hiIndex q n ≤ ((n : ℤ) - 1).toNat := Int.toNat_le_toNat h3
  omega

theorem hiIndex_ge (q : ℚ) (n : ℕ) (h0 : 0 ≤ q) (hn : 1 ≤ n) :
    q * ((n : ℚ) - 1) ≤ (hiIndex q n : ℚ) := by
  have hnn : (0 : ℚ) ≤ (n : ℚ) - 1 := by
    have : (1 : ℚ) ≤ (n : ℚ) := by exact_mod_cast hn
    linarith
  have hp : (0 : ℚ) ≤ q * ((n : ℚ) - 1) := mul_nonneg h0 hnn
  have hceil : ((⌈q * ((n : ℚ) - 1)⌉).toNat : ℤ) = ⌈q * ((n : ℚ) - 1)⌉ :=
    Int.toNat_of_nonneg (Int.ceil_nonneg hp)
  have := Int.le_ceil (q * ((n : ℚ) - 1))
  calc q * ((n : ℚ) - 1) ≤ (⌈q * ((n : ℚ) - 1)⌉ : ℚ) := this
    _ = ((hiIndex q n : ℤ) : ℚ) := by rw [hiIndex, hceil]
    _ = (hiIndex q n : ℚ) := by push_cast; rfl

theorem hiIndex_min (q : ℚ) (n : ℕ) (j : ℕ) (hj : q * ((n : ℚ) - 1) ≤ (j : ℚ)) :
    hiIndex q n ≤ j := by
  have h1 : (⌈q * ((n : ℚ) - 1)⌉ : ℤ) ≤ (j : ℤ) := Int.ceil_le.mpr (by exact_mod_cast hj)
  rw [hiIndex]
  exact Int.toNat_le.mpr h1

theorem hiIndex_mono (a b : ℚ) (n : ℕ) (hab : a ≤ b) (hn : 1 ≤ n) :
    hiIndex a n ≤ hiIndex b n := by
  have hnn : (0 : ℚ) ≤ (n : ℚ) - 1 := by
    have : (1 : ℚ) ≤ (n : ℚ) := by exact_mod_cast hn
    linarith
  exact Int.toNat_le_toNat (Int.ceil_le_ceil (mul_le_mul_of_nonneg_right hab hnn))

theorem sortedAsc_getD_mono (xs : List ℚ) {i j : ℕ} (hij : i ≤ j) (hj : j < xs.length) :
    (sortedAsc xs).getD i 0 ≤ (sortedAsc xs).getD j 0 := by
  have hj2 : j < (sortedAsc xs).length := by rwa [sortedAsc_length]
  have hi2 : i < (sortedAsc xs).length := lt_of_le_of_lt hij hj2
  rw [List.getD_eq_getElem _ _ hi2, List.getD_eq_getElem _ _ hj2]
  exact (sortedAsc_sorted xs).rel_get_of_le (Fin.mk_le_mk.mpr hij)

theorem quantileHigher_mem (xs : List ℚ) (q : ℚ) (h0 : 0 ≤ q) (h1 : q ≤ 1) (hne : xs ≠ []) :
    (sortedAsc xs).getD (hiIndex q xs.length) 0 ∈ xs := by
  have hn : 1 ≤ xs.length := List.length_pos.mpr hne
  have hk : hiIndex q xs.length < (sortedAsc xs).length := by
    rw [sortedAsc_length]; exact hiIndex_lt q xs.length h1 hn
  exact (sortedAsc_mem xs).mp (getD_mem _ _ _ hk)

theorem sortedAsc_getD_le_of_mem (xs : List ℚ) {x : ℚ} (hx : x ∈ xs) :
    (sortedAsc xs).getD 0 0 ≤ x := by
  obtain ⟨j, hj, rfl⟩ := List.getElem_of_mem ((sortedAsc_mem xs).mpr hx)
  have hj2 : j < xs.length := by rwa [sortedAsc_length] at hj
  rw [← List.getD_eq_getElem _ 0 hj]
  exact sortedAsc_getD_mono xs (Nat.zero_le j) hj2

theorem le_sortedAsc_getD_last_of_mem (xs : List ℚ) {x : ℚ} (hx : x ∈ xs) :
    x ≤ (sortedAsc xs).getD (xs.length - 1) 0 := by
  obtain ⟨j, hj, rfl⟩ := List.getElem_of_mem ((sortedAsc_mem xs).mpr hx)
  have hj2 : j < xs.length := by rwa [sortedAsc_length] at hj
  rw [← List.getD_eq_getElem _ 0 hj]
  exact sortedAsc_getD_mono xs (by omega) (by omega)

theorem hiIndex_zero (n : ℕ) : hiIndex 0 n = 0 := by
  simp [hiIndex]

theorem hiIndex_one (n : ℕ) (hn : 1 ≤ n) : hiIndex 1 n = n - 1 := by
  have h4 : (⌈(n : ℚ) - 1⌉ : ℤ) = (n : ℤ) - 1 := by
    have h5 : ((n : ℚ) - 1) = (((n : ℤ) - 1 : ℤ) : ℚ) := by push_cast; ring
    rw [h5, Int.ceil_intCast]
  rw [hiIndex, one_mul, h4]
  omega

theorem sortedAsc_oneTo20 : sortedAsc oneTo20 = oneTo20 := by
  norm_num [sortedAsc, oneTo20, List.insertionSort, List.orderedInsert]

theorem var_oneTo20 : calculate_value_at_risk oneTo20 (1 / 20) = .num 2 := by
  have h : (⌈(19 : ℚ) / 20⌉).toNat = 1 := by
    have h1 : (⌈(19 : ℚ) / 20⌉ : ℤ) = 1 := by
      rw [Int.ceil_eq_iff] <;> norm_num
    rw [h1]
    rfl
  norm_num [calculate_value_at_risk, quantileHigher, oneTo20, sortedAsc,
    List.insertionSort, List.orderedInsert, h, List.getD,
    List.getElem?_cons_succ, List.getElem?_cons_zero]
  exact fun hc => nomatch hc

/-- C3 counterexample: on the spec's own fixture — the sorted sample
`1..20` with α = 0.05 — the code selects the value `2`, while the entry
at index 1 under 1-based indexing of the sorted sample (which the claim
says is selected) is the value `1`. -/
theorem var_fixture_counterexample :
    calculate_value_at_risk oneTo20 (1 / 20) = .num 2 ∧
    (sortedAsc oneTo20).getD 0 0 = 1 ∧
    PdResult.num (2 : ℚ) ≠ PdResult.num ((sortedAsc oneTo20).getD 0 0) := by
  refine ⟨var_oneTo20, ?_, ?_⟩
  · rw [sortedAsc_oneTo20]; rfl
  · rw [sortedAsc_oneTo20]
    intro h
    exact absurd (PdResult.num.inj h) (by norm_num [oneTo20, List.getD])

/-- C3 (amended): for every nonempty return series and confidence level
α in [0,1], `calculate_value_at_risk` returns the order statistic of the
sorted sample at the least 0-based index at or above the virtual position
α·(n−1) — the higher of the two bracketing order statistics; on the
fixture of sorted values `1..20` with α = 0.05 this selects the value
`2`, the entry at index 2 under 1-based indexing (0-based index 1). -/
theorem var_higher_order_statistic (xs : List ℚ) (q : ℚ)
    (hne : xs ≠ []) (h0 : 0 ≤ q) (h1 : q ≤ 1) :
    (∃ s k, List.Perm s xs ∧ s.Sorted (· ≤ ·) ∧ k < s.length ∧
      q * ((xs.length : ℚ) - 1) ≤ (k : ℚ) ∧
      (∀ j : ℕ, q * ((xs.length : ℚ) - 1) ≤ (j : ℚ) → k ≤ j) ∧
      calculate_value_at_risk xs q = .num (s.getD k 0)) ∧
    calculate_value_at_risk oneTo20 (1 / 20) = .num 2 := by
  have hn : 1 ≤ xs.length := List.length_pos.mpr hne
  refine ⟨⟨sortedAsc xs, hiIndex q xs.length, List.perm_insertionSort _ xs,
    sortedAsc_sorted xs, ?_, hiIndex_ge q xs.length h0 hn,
    fun j hj => hiIndex_min q xs.length j hj, ?_⟩, var_oneTo20⟩
  · rw [sortedAsc_length]
    exact hiIndex_lt q xs.length h1 hn
  · exact quantileHigher_in_range xs q h0 h1 hne

/-- Witness for C3 (amended) at the fixture `1..20`, α = 0.05. -/
theorem var_higher_order_statistic_witness :
    (∃ s k, List.Perm s oneTo20 ∧ s.Sorted (· ≤ ·) ∧ k < s.length ∧
      (1 / 20 : ℚ) * ((oneTo20.length : ℚ) - 1) ≤ (k : ℚ) ∧
      (∀ j : ℕ, (1 / 20 : ℚ) * ((oneTo20.length : ℚ) - 1) ≤ (j : ℚ) → k ≤ j) ∧
      calculate_value_at_risk oneTo20 (1 / 20) = .num (s.getD k 0)) ∧
    calculate_value_at_risk oneTo20 (1 / 20) = .num 2 :=
  var_higher_order_statistic oneTo20 (1 / 20) (by simp [oneTo20]) (by norm_num) (by norm_num)

/-- C8: for a fixed return series and confidence levels α₁ ≤ α₂ in (0,1),
the VaR at α₁ is at most the VaR at α₂ (the quantile is monotonically
non-decreasing in the confidence level). -/
theorem var_monotone_alpha (xs : List ℚ) (a b : ℚ) (hne : xs ≠ [])
    (h0 : 0 < a) (hab : a ≤ b) (h1 : b < 1) :
    ∃ v1 v2, calculate_value_at_risk xs a = .num v1 ∧
      calculate_value_at_risk xs b = .num v2 ∧ v1 ≤ v2 := by
  have hn : 1 ≤ xs.length := List.length_pos.mpr hne
  refine ⟨_, _,
    quantileHigher_in_range xs a (le_of_lt h0) (le_trans hab (le_of_lt h1)) hne,
    quantileHigher_in_range xs b (le_trans (le_of_lt h0) hab) (le_of_lt h1) hne, ?_⟩
  exact sortedAsc_getD_mono xs (hiIndex_mono a b xs.length hab hn)
    (hiIndex_lt b xs.length (le_of_lt h1) hn)

/-- Witness for C8 at `xs = [1, 2]`, α₁ = 1/4, α₂ = 1/2. -/
theorem var_monotone_alpha_witness :
    ∃ v1 v2, calculate_value_at_risk [1, 2] (1 / 4) = .num v1 ∧
      calculate_value_at_risk [1, 2] (1 / 2) = .num v2 ∧ v1 ≤ v2 :=
  var_monotone_alpha [1, 2] (1 / 4) (1 / 2) (by simp) (by norm_num) (by norm_num) (by norm_num)

/-- C9 counterexample: confidence level 0 lies outside the open interval
(0,1), yet the code returns a value (`5` on the series `[5]`) instead of
failing; and on an empty series the quantile primitive yields NaN, again
not an `InvalidParameter` failure. -/
theorem var_boundary_counterexample :
    calculate_value_at_risk [5] 0 = .num 5 ∧
    PdResult.num (5 : ℚ) ≠ .invalidParameter ∧
    calculate_value_at_risk [] (1 / 20) = .nan ∧
    PdResult.nan ≠ .invalidParameter := by
  refine ⟨?_, fun h => PdResult.noConfusion h, ?_, fun h => PdResult.noConfusion h⟩
  · norm_num [calculate_value_at_risk, quantileHigher, sortedAsc,
      List.insertionSort, List.orderedInsert, List.getD]
  · norm_num [calculate_value_at_risk, quantileHigher]

/-- C9 (amended): `calculate_value_at_risk` with confidence level exactly
0 returns the minimum observed return and with confidence level exactly 1
the maximum; a confidence level outside the closed interval [0,1] fails
with an invalid-parameter error, while an empty return series (with a
level in [0,1]) yields an undefined (NaN) result rather than an error. -/
theorem var_boundary_behavior (xs : List ℚ) (b c : ℚ) (hne : xs ≠ [])
    (hb : b < 0 ∨ 1 < b) (hc0 : 0 ≤ c) (hc1 : c ≤ 1) :
    (∃ m, calculate_value_at_risk xs 0 = .num m ∧ m ∈ xs ∧ ∀ x ∈ xs, m ≤ x) ∧
    (∃ M, calculate_value_at_risk xs 1 = .num M ∧ M ∈ xs ∧ ∀ x ∈ xs, x ≤ M) ∧
    calculate_value_at_risk xs b = .invalidParameter ∧
    calculate_value_at_risk [] c = .nan := by
  have hn : 1 ≤ xs.length := List.length_pos.mpr hne
  refine ⟨⟨_, quantileHigher_in_range xs 0 le_rfl zero_le_one hne,
    quantileHigher_mem xs 0 le_rfl zero_le_one hne, fun x hx => ?_⟩,
    ⟨_, quantileHigher_in_range xs 1 zero_le_one le_rfl hne,
    quantileHigher_mem xs 1 zero_le_one le_rfl hne, fun x hx => ?_⟩, ?_, ?_⟩
  · rw [hiIndex_zero]
    exact sortedAsc_getD_le_of_mem xs hx
  · rw [hiIndex_one xs.length hn]
    exact le_sortedAsc_getD_last_of_mem xs hx
  · simp only [calculate_value_at_risk, quantileHigher, if_pos hb]
  · simp only [calculate_value_at_risk, quantileHigher]
    rw [if_neg (by simp only [not_or, not_lt]; exact ⟨hc0, hc1⟩)]
    simp

/-- Witness for C9 (amended) at `xs = [2, 1]`, out-of-range level 2,
in-range level 1/2. -/
theorem var_boundary_behavior_witness :
    (∃ m, calculate_value_at_risk [2, 1] 0 = .num m ∧ m ∈ ([2, 1] : List ℚ) ∧
      ∀ x ∈ ([2, 1] : List ℚ), m ≤ x) ∧
    (∃ M, calculate_value_at_risk [2, 1] 1 = .num M ∧ M ∈ ([2, 1] : List ℚ) ∧
      ∀ x ∈ ([2, 1] : List ℚ), x ≤ M) ∧
    calculate_value_at_risk [2, 1] 2 = .invalidParameter ∧
    calculate_value_at_risk [] (1 / 2) = .nan :=
  var_boundary_behavior [2, 1] 2 (1 / 2) (by simp) (Or.inr (by norm_num))
    (by norm_num) (by norm_num)

/-- C10: for every nonempty return column and confidence level in [0,1],
the value returned by `calculate_value_at_risk` is one of the observed
values of the column (an actual order statistic, never interpolated), and
hence lies between the column's minimum and maximum. -/
theorem var_is_order_statistic (xs : List ℚ) (q : ℚ)
    (hne : xs ≠ []) (h0 : 0 ≤ q) (h1 : q ≤ 1) :
    ∃ v, calculate_value_at_risk xs q = .num v ∧ v ∈ xs ∧
      (∀ lo, (∀ x ∈ xs, lo ≤ x) → lo ≤ v) ∧
      (∀ up, (∀ x ∈ xs, x ≤ up) → v ≤ up) := by
  refine ⟨_, quantileHigher_in_range xs q h0 h1 hne, quantileHigher_mem xs q h0 h1 hne,
    fun lo hlo => hlo _ (quantileHigher_mem xs q h0 h1 hne),
    fun up hup => hup _ (quantileHigher_mem xs q h0 h1 hne)⟩

/-- Witness for C10 at `xs = [3, 1, 2]`, α = 1/3. -/
theorem var_is_order_statistic_witness :
    ∃ v, calculate_value_at_risk [3, 1, 2] (1 / 3) = .num v ∧ v ∈ ([3, 1, 2] : List ℚ) ∧
      (∀ lo, (∀ x ∈ ([3, 1, 2] : List ℚ), lo ≤ x) → lo ≤ v) ∧
      (∀ up, (∀ x ∈ ([3, 1, 2] : List ℚ), x ≤ up) → v ≤ up) :=
  var_is_order_statistic [3, 1, 2] (1 / 3) (by simp) (by norm_num) (by norm_num)

/-! ### Helper lemmas: means, list maxima, monotone series -/

theorem mul_length_le_sum (L : List ℚ) (t : ℚ) (h : ∀ x ∈ L, t ≤ x) :
    t * (L.length : ℚ) ≤ L.sum := by
  induction L with
  | nil => simp
  | cons a as ih =>
    have ha := h a (List.mem_cons_self a as)
    have ih2 := ih fun x hx => h x (List.mem_cons_of_mem a hx)
    simp only [List.sum_cons, List.length_cons]
    push_cast
    nlinarith

theorem sum_le_mul_length (L : List ℚ) (t : ℚ) (h : ∀ x ∈ L, x ≤ t) :
    L.sum ≤ t * (L.length : ℚ) := by
  induction L with
  | nil => simp
  | cons a as ih =>
    have ha := h a (List.mem_cons_self a as)
    have ih2 := ih fun x hx => h x (List.mem_cons_of_mem a hx)
    simp only [List.sum_cons, List.length_cons]
    push_cast
    nlinarith

theorem le_mean_of_forall_le (L : List ℚ) (t : ℚ) (hne : L ≠ []) (h : ∀ x ∈ L, t ≤ x) :
    t ≤ L.sum / (L.length : ℚ) := by
  have hl : (0 : ℚ) < (L.length : ℚ) := by
    exact_mod_cast List.length_pos.mpr hne
  rw [le_div_iff₀ hl]
  exact mul_length_le_sum L t h

theorem mean_le_of_forall_le (L : List ℚ) (t : ℚ) (hne : L ≠ []) (h : ∀ x ∈ L, x ≤ t) :
    L.sum / (L.length : ℚ) ≤ t := by
  have hl : (0 : ℚ) < (L.length : ℚ) := by
    exact_mod_cast List.length_pos.mpr hne
  rw [div_le_iff₀ hl]
  exact sum_le_mul_length L t h

theorem le_foldl_max (l : List ℚ) : ∀ b : ℚ, b ≤ l.foldl max b := by
  induction l with
  | nil => intro b; exact le_rfl
  | cons a l ih => intro b; exact le_trans (le_max_left b a) (ih (max b a))

theorem mem_le_foldl_max (l : List ℚ) : ∀ (b x : ℚ), x ∈ l → x ≤ l.foldl max b := by
  induction l with
  | nil => intro b x hx; exact absurd hx (List.not_mem_nil x)
  | cons a l ih =>
    intro b x hx
    rcases List.mem_cons.mp hx with rfl | hx
    · exact le_trans (le_max_right b x) (le_foldl_max l (max b x))
    · exact ih (max b a) x hx

theorem le_listMax (L : List ℚ) {x : ℚ} (hx : x ∈ L) : x ≤ listMax L := by
  cases L with
  | nil => exact absurd hx (List.not_mem_nil x)
  | cons a l =>
    rcases List.mem_cons.mp hx with rfl | hx
    · exact le_foldl_max l x
    · exact mem_le_foldl_max l a x hx

theorem quantileHigher_nil (r : ℚ) (h0 : 0 ≤ r) (h1 : r ≤ 1) :
    quantileHigher [] r = .nan := by
  rw [quantileHigher, if_neg]
  · simp
  · simp only [not_or, not_lt]
    exact ⟨h0, h1⟩

theorem expandingMaxAux_chain (ys : List ℚ) : ∀ m : ℚ, List.Chain (· ≤ ·) m ys →
    expandingMaxAux m ys = ys := by
  induction ys with
  | nil => intro m _; rfl
  | cons y ys ih =>
    intro m hc
    rcases hc with _ | ⟨hmy, hrest⟩
    show max m y :: expandingMaxAux (max m y) ys = y :: ys
    rw [max_eq_right hmy, ih y hrest]

theorem expandingMax_of_strictMono (ys : List ℚ) (h : ys.Chain' (· < ·)) :
    expandingMax ys = ys := by
  cases ys with
  | nil => rfl
  | cons x ys =>
    have hchain : List.Chain (· < ·) x ys := h
    have hc : List.Chain (· ≤ ·) x ys := hchain.imp fun a b hab => le_of_lt hab
    show x :: expandingMaxAux x ys = x :: ys
    rw [expandingMaxAux_chain ys x hc]

theorem zipWith_sub_self (ys : List ℚ) :
    List.zipWith (fun a b => a - b) ys ys = List.replicate ys.length 0 := by
  induction ys with
  | nil => rfl
  | cons y ys ih => simp [List.replicate_succ, ih]

theorem chain_le_replicate (k : ℕ) :
    List.Chain (· ≤ ·) (0 : ℚ) (List.replicate k 0) := by
  induction k with
  | zero => exact List.Chain.nil
  | succ k ih =>
    rw [List.replicate_succ]
    exact List.Chain.cons le_rfl ih

theorem expandingMax_replicate_zero (n : ℕ) :
    expandingMax (List.replicate n (0 : ℚ)) = List.replicate n 0 := by
  cases n with
  | zero => rfl
  | succ k =>
    rw [List.replicate_succ]
    show (0 : ℚ) :: expandingMaxAux 0 (List.replicate k 0) = _
    rw [expandingMaxAux_chain _ 0 (chain_le_replicate k)]

theorem quantileHigher_replicate_zero (n : ℕ) (r : ℚ) (h0 : 0 ≤ r) (h1 : r ≤ 1)
    (hn : n ≠ 0) : quantileHigher (List.replicate n (0 : ℚ)) r = .num 0 := by
  have hne : List.replicate n (0 : ℚ) ≠ [] := by
    simp [List.replicate_eq_nil, hn]
  rw [quantileHigher_in_range _ r h0 h1 hne]
  have hmem := quantileHigher_mem (List.replicate n (0 : ℚ)) r h0 h1 hne
  rw [List.eq_of_mem_replicate hmem]

theorem filter_lt_replicate_zero (n : ℕ) :
    (List.replicate n (0 : ℚ)).filter (fun x => (0 : ℚ) < x) = [] := by
  rw [List.filter_eq_nil]
  intro a ha
  rw [List.eq_of_mem_replicate ha]
  simp

theorem getD_mem_take (xs : List ℚ) : ∀ j : ℕ, j < xs.length →
    xs.getD j 0 ∈ xs.take (j + 1) := by
  induction xs with
  | nil => intro j hj; simp at hj
  | cons x xs ih =>
    intro j hj
    cases j with
    | zero => simp [List.getD_cons_zero]
    | succ j =>
      rw [List.getD_cons_succ, List.take_succ_cons]
      exact List.mem_cons_of_mem x (ih j (by simpa using hj))

theorem specDrawdown_nonneg (xs : List ℚ) (j : ℕ) (hj : j < xs.length) :
    0 ≤ specDrawdown xs j := by
  rw [specDrawdown, sub_nonneg]
  exact le_listMax _ (getD_mem_take xs j hj)

theorem specMaxDrawdown_nonneg (xs : List ℚ) (i : ℕ) (hi : i < xs.length) :
    0 ≤ specMaxDrawdown xs i := by
  have h0 : (0 : ℕ) ∈ List.range (i + 1) := List.mem_range.mpr (Nat.succ_pos i)
  have hmem : specDrawdown xs 0 ∈ (List.range (i + 1)).map (specDrawdown xs) :=
    List.mem_map_of_mem _ h0
  have hnn : 0 ≤ specDrawdown xs 0 := specDrawdown_nonneg xs 0 (by omega)
  exact le_trans hnn (le_listMax _ hmem)

theorem mem_max_drawdown_nonneg (xs : List ℚ) {y : ℚ}
    (hy : y ∈ expandingMax (List.zipWith (fun a b => a - b) (expandingMax xs) xs)) :
    0 ≤ y := by
  rw [max_drawdown_eq] at hy
  obtain ⟨i, hi, rfl⟩ := List.mem_map.mp hy
  exact specMaxDrawdown_nonneg xs i (List.mem_range.mp hi)

/-- C2: for every return series and confidence level whose VaR is a
number `v`, `calculate_expected_shortfall` returns the `nanmean` of
exactly those observations that are strictly less than `v` — every
averaged value is an observation below the threshold, and every
observation below the threshold is averaged; the rest are ignored. -/
theorem expected_shortfall_tail_mean (xs : List ℚ) (q v : ℚ)
    (hv : calculate_value_at_risk xs q = .num v) :
    calculate_expected_shortfall xs q = nanmean (xs.filter (fun x => x < v)) ∧
    (∀ y : ℚ, y ∈ xs.filter (fun x => x < v) ↔ y ∈ xs ∧ y < v) := by
  constructor
  · simp only [calculate_expected_shortfall, hv]
  · intro y
    simp [List.mem_filter]

/-- Witness for C2 at `xs = [1, 2, 3, 4]`, α = 1/2 (VaR threshold 3). -/
theorem expected_shortfall_tail_mean_witness :
    calculate_expected_shortfall [1, 2, 3, 4] (1 / 2)
        = nanmean (([1, 2, 3, 4] : List ℚ).filter (fun x => x < 3)) ∧
    (∀ y : ℚ, y ∈ ([1, 2, 3, 4] : List ℚ).filter (fun x => x < 3) ↔
      y ∈ ([1, 2, 3, 4] : List ℚ) ∧ y < 3) := by
  refine expected_shortfall_tail_mean [1, 2, 3, 4] (1 / 2) 3 ?_
  have h : (⌈(3 : ℚ) / 2⌉).toNat = 2 := by
    have h1 : (⌈(3 : ℚ) / 2⌉ : ℤ) = 2 := by
      rw [Int.ceil_eq_iff] <;> norm_num
    rw [h1]
    rfl
  norm_num [calculate_value_at_risk, quantileHigher, sortedAsc,
    List.insertionSort, List.orderedInsert, h, List.getD,
    List.getElem?_cons_succ, List.getElem?_cons_zero]
  exact fun hc => nomatch hc

/-- C7: whenever at least one observation lies strictly below the VaR
threshold, the Expected Shortfall is a number and is at most the VaR on
the same inputs. -/
theorem es_le_var (xs : List ℚ) (q v : ℚ)
    (hv : calculate_value_at_risk xs q = .num v)
    (hex : ∃ x ∈ xs, x < v) :
    ∃ e, calculate_expected_shortfall xs q = .num e ∧ e ≤ v := by
  obtain ⟨x0, hx0, hx0v⟩ := hex
  have hneL : xs.filter (fun x => x < v) ≠ [] := by
    intro hnil
    have hx0L : x0 ∈ xs.filter (fun x => x < v) :=
      List.mem_filter.mpr ⟨hx0, by simpa using hx0v⟩
    rw [hnil] at hx0L
    exact absurd hx0L (List.not_mem_nil x0)
  refine ⟨(xs.filter (fun x => x < v)).sum / ((xs.filter (fun x => x < v)).length : ℚ),
    ?_, ?_⟩
  · simp only [calculate_expected_shortfall, hv, nanmean, if_neg hneL]
  · refine mean_le_of_forall_le _ v hneL fun x hx => ?_
    have := (List.mem_filter.mp hx).2
    exact le_of_lt (by simpa using this)

/-- Witness for C7 at `xs = [1, 2, 3, 4]`, α = 1/2 (VaR threshold 3,
tail `[1, 2]`). -/
theorem es_le_var_witness :
    ∃ e, calculate_expected_shortfall [1, 2, 3, 4] (1 / 2) = .num e ∧ e ≤ 3 := by
  refine es_le_var [1, 2, 3, 4] (1 / 2) 3 ?_ ⟨1, by simp, by norm_num⟩
  have h : (⌈(3 : ℚ) / 2⌉).toNat = 2 := by
    have h1 : (⌈(3 : ℚ) / 2⌉ : ℤ) = 2 := by
      rw [Int.ceil_eq_iff] <;> norm_num
    rw [h1]
    rfl
  norm_num [calculate_value_at_risk, quantileHigher, sortedAsc,
    List.insertionSort, List.orderedInsert, h, List.getD,
    List.getElem?_cons_succ, List.getElem?_cons_zero]
  exact fun hc => nomatch hc

/-- C5: when a tail-average step has no qualifying observation the
result is NaN: `calculate_expected_shortfall` yields NaN when no return
is strictly below the VaR threshold, and
`calculate_conditional_drawdown_risk` yields NaN on any strictly
increasing return series, whose drawdown series is identically zero; the
NaN is an ordinary returned value, distinct from every number (in
particular from zero) and from a raised error. -/
theorem tail_nan_behavior (xs ys : List ℚ) (q r v : ℚ)
    (hv : calculate_value_at_risk xs q = .num v)
    (hempty : xs.filter (fun x => x < v) = [])
    (hr0 : 0 < r) (hr1 : r < 1) (hmono : ys.Chain' (· < ·)) :
    calculate_expected_shortfall xs q = .nan ∧
    List.zipWith (fun a b => a - b) (expandingMax ys) ys = List.replicate ys.length 0 ∧
    calculate_conditional_drawdown_risk ys r = .nan ∧
    (∀ z : ℚ, PdResult.nan ≠ .num z) ∧ PdResult.nan ≠ .invalidParameter := by
  have hdd : List.zipWith (fun a b => a - b) (expandingMax ys) ys
      = List.replicate ys.length 0 := by
    rw [expandingMax_of_strictMono ys hmono, zipWith_sub_self ys]
  refine ⟨?_, hdd, ?_, fun z h => PdResult.noConfusion h, fun h => PdResult.noConfusion h⟩
  · simp only [calculate_expected_shortfall, hv, hempty]
    rfl
  · simp only [calculate_conditional_drawdown_risk]
    rw [hdd, expandingMax_replicate_zero ys.length]
    rcases Nat.eq_zero_or_pos ys.length with h | h
    · rw [h, List.replicate_zero, quantileHigher_nil r (le_of_lt hr0) (le_of_lt hr1)]
    · rw [quantileHigher_replicate_zero ys.length r (le_of_lt hr0) (le_of_lt hr1) (by omega)]
      show nanmean ((List.replicate ys.length (0 : ℚ)).filter (fun x => (0 : ℚ) < x)) = .nan
      rw [filter_lt_replicate_zero]
      rfl

/-- Witness for C5 at `xs = [1, 1]` with α = 1/2 (VaR threshold 1, empty
tail) and the strictly increasing series `ys = [1, 2]`. -/
theorem tail_nan_behavior_witness :
    calculate_expected_shortfall [1, 1] (1 / 2) = .nan ∧
    List.zipWith (fun a b => a - b) (expandingMax [1, 2]) [1, 2]
      = List.replicate ([1, 2] : List ℚ).length 0 ∧
    calculate_conditional_drawdown_risk [1, 2] (1 / 2) = .nan ∧
    (∀ z : ℚ, PdResult.nan ≠ .num z) ∧ PdResult.nan ≠ .invalidParameter := by
  refine tail_nan_behavior [1, 1] [1, 2] (1 / 2) (1 / 2) 1 ?_ ?_ (by norm_num) (by norm_num) ?_
  · have h : (⌈(1 : ℚ) / 2⌉).toNat = 1 := by
      have h1 : (⌈(1 : ℚ) / 2⌉ : ℤ) = 1 := by
        rw [Int.ceil_eq_iff] <;> norm_num
      rw [h1]
      rfl
    norm_num [calculate_value_at_risk, quantileHigher, sortedAsc,
      List.insertionSort, List.orderedInsert, h, List.getD,
      List.getElem?_cons_succ, List.getElem?_cons_zero]
    exact fun hc => nomatch hc
  · norm_num [List.filter]
  · norm_num [List.chain'_cons, List.chain'_singleton]

/-- C6: whenever `calculate_conditional_drawdown_risk` returns a number,
that number is at least the 'higher' α-quantile of the
running-maximum-of-drawdown series used as its own threshold, and at
least zero. -/
theorem cdar_ge_threshold_nonneg (xs : List ℚ) (r c : ℚ)
    (hr0 : 0 < r) (hr1 : r < 1)
    (hc : calculate_conditional_drawdown_risk xs r = .num c) :
    (∃ t, quantileHigher
        (expandingMax (List.zipWith (fun a b => a - b) (expandingMax xs) xs)) r
        = .num t ∧ t ≤ c) ∧ 0 ≤ c := by
  simp only [calculate_conditional_drawdown_risk] at hc
  set mdd := expandingMax (List.zipWith (fun a b => a - b) (expandingMax xs) xs) with hmdd
  cases hq : quantileHigher mdd r with
  | nan => rw [hq] at hc; exact absurd hc (fun h => PdResult.noConfusion h)
  | invalidParameter => rw [hq] at hc; exact absurd hc (fun h => PdResult.noConfusion h)
  | num t =>
    rw [hq] at hc
    have hc2 : nanmean (mdd.filter (fun x => t < x)) = PdResult.num c := hc
    by_cases hLnil : mdd.filter (fun x => t < x) = []
    · rw [hLnil, show nanmean ([] : List ℚ) = .nan from rfl] at hc2
      exact absurd hc2 (fun h => PdResult.noConfusion h)
    · have hval : nanmean (mdd.filter (fun x => t < x))
          = .num ((mdd.filter (fun x => t < x)).sum
            / ((mdd.filter (fun x => t < x)).length : ℚ)) := by
        simp only [nanmean, if_neg hLnil]
      rw [hval] at hc2
      have hceq : (mdd.filter (fun x => t < x)).sum
          / ((mdd.filter (fun x => t < x)).length : ℚ) = c := PdResult.num.inj hc2
      constructor
      · refine ⟨t, rfl, ?_⟩
        rw [← hceq]
        refine le_mean_of_forall_le _ t hLnil fun x hx => ?_
        exact le_of_lt (by simpa using (List.mem_filter.mp hx).2)
      · rw [← hceq]
        refine le_mean_of_forall_le _ 0 hLnil fun x hx => ?_
        have hxmem : x ∈ mdd := (List.mem_filter.mp hx).1
        rw [hmdd] at hxmem
        exact mem_max_drawdown_nonneg xs hxmem

/-- Witness for C6 at `xs = [0, -1, -2, -3]`, α = 1/4: the
running-maximum-of-drawdown series is `[0, 1, 2, 3]`, the threshold is 1
and CDaR is 5/2. -/
theorem cdar_ge_threshold_nonneg_witness :
    (∃ t, quantileHigher
        (expandingMax (List.zipWith (fun a b => a - b)
          (expandingMax [0, -1, -2, -3]) [0, -1, -2, -3])) (1 / 4)
        = .num t ∧ t ≤ (5 / 2 : ℚ)) ∧ (0 : ℚ) ≤ 5 / 2 := by
  refine cdar_ge_threshold_nonneg [0, -1, -2, -3] (1 / 4) (5 / 2)
    (by norm_num) (by norm_num) ?_
  have h : (⌈(3 : ℚ) / 4⌉).toNat = 1 := by
    have h1 : (⌈(3 : ℚ) / 4⌉ : ℤ) = 1 := by
      rw [Int.ceil_eq_iff] <;> norm_num
    rw [h1]
    rfl
  have hmdd : expandingMax (List.zipWith (fun a b => a - b)
      (expandingMax [0, -1, -2, -3]) [0, -1, -2, -3]) = [0, 1, 2, 3] := by
    norm_num [expandingMax, expandingMaxAux, max_def]
  have hq : quantileHigher [0, 1, 2, 3] (1 / 4) = .num 1 := by
    norm_num [quantileHigher, sortedAsc, List.insertionSort, List.orderedInsert,
      h, List.getD, List.getElem?_cons_succ, List.getElem?_cons_zero]
    exact fun hc => nomatch hc
  simp only [calculate_conditional_drawdown_risk]
  rw [hmdd, hq]
  show nanmean (([0, 1, 2, 3] : List ℚ).filter (fun x => (1 : ℚ) < x)) = .num (5 / 2)
  norm_num [List.filter, nanmean]
  exact fun hc => nomatch hc

end RiskMetrics
